import Mathlib

/-!
Verification of the "get unique DOM elements" utility (modern implementation).

The source operates on the host document's element tree.  We embed that tree
shallowly: a `DomNode` carries the data the functions read (`tagName`, the
attribute name/value pairs, the class list, and the ordered children), and the
possibly-absent `document.body` is an `Option DomNode` argument.

JavaScript details embedded faithfully:
  * `querySelectorAll('*')` on an element returns all proper descendants in
    document (pre)order.
  * `[...new Set(xs)]` keeps the first occurrence of each element, in
    insertion order.
  * the default `Array.prototype.sort()` on strings compares code units
    lexicographically; `a.localeCompare(b)` is modelled with the same
    lexicographic comparison (they agree on ASCII tag names).
  * `String.prototype.toLowerCase` is modelled per character (tag names are
    ASCII).
  * a JS `Map` keeps keys in insertion order; setting an existing key updates
    it in place.  An object built by successive `acc[k] = v` assignments
    (`Object.fromEntries`, the attribute-reduce) behaves the same way; both
    are embedded as association lists.
  * `getUniqueDomElementsRobust` destructures its options object with
    defaults, so an omitted field and an explicit `undefined` are the same;
    an options field is therefore `Option`-valued, with `none` for
    omitted/undefined.  The explicit `null` container is the inner `none` of
    `container : Option (Option DomNode)`.
  * a thrown `Error` is an `Except.error` carrying the message.
-/

/-- An element of the host document tree: tag name, attributes, class list,
and ordered children. -/
inductive DomNode where
  | node (tagName : String) (attributes : List (String × String))
      (classList : List String) (children : List DomNode)

def DomNode.tagName : DomNode → String
  | .node t _ _ _ => t

def DomNode.attributes : DomNode → List (String × String)
  | .node _ a _ _ => a

def DomNode.classList : DomNode → List String
  | .node _ _ c _ => c

def DomNode.children : DomNode → List DomNode
  | .node _ _ _ cs => cs

mutual
/-- `el.querySelectorAll('*')`: every proper descendant of `el`, in document
(pre)order. -/
def querySelectorAllStar : DomNode → List DomNode
  | .node _ _ _ cs => descendantsOfList cs
/-- Descendant enumeration over a sibling list: each sibling, then its own
descendants, then the later siblings. -/
def descendantsOfList : List DomNode → List DomNode
  | [] => []
  | c :: cs => (c :: querySelectorAllStar c) ++ descendantsOfList cs
end

/-- `document.body?.querySelectorAll('*') || []`: the descendants of the body
when it exists, and the empty list when the document has no body. -/
def bodyElementsOf (body : Option DomNode) : List DomNode :=
  match body with
  | some b => querySelectorAllStar b
  | none => []

/-- Lexicographic (code-unit) comparison of character sequences, the order
used by the default JS string sort. -/
def charSeqLe : List Char → List Char → Bool
  | [], _ => true
  | _ :: _, [] => false
  | a :: as, b :: bs =>
    if a.toNat < b.toNat then true
    else if b.toNat < a.toNat then false
    else charSeqLe as bs

/-- The string order of the default `Array.prototype.sort()`. -/
def jsStrLe (a b : String) : Prop := charSeqLe a.data b.data = true

instance : DecidableRel jsStrLe := fun a b =>
  inferInstanceAs (Decidable (charSeqLe a.data b.data = true))

/-- `arr.sort()` on strings: stable sort in ascending code-unit order. -/
def jsSort (l : List String) : List String := List.insertionSort jsStrLe l

/-- `s.toLowerCase()` (ASCII case mapping, as applies to tag names). -/
def jsToLowerCase (s : String) : String := ⟨s.data.map Char.toLower⟩

/-- One step of `Set.prototype.add` on an insertion-ordered set embedded as
a duplicate-free list. -/
def setDedupStep (acc : List String) (s : String) : List String :=
  if s ∈ acc then acc else acc ++ [s]

/-- `[...new Set(l)]`: drop later duplicates, keeping first occurrences in
insertion order. -/
def setDedup (l : List String) : List String :=
  l.foldl setDedupStep []

/-- OPTION 1 of the source, `getUniqueDomElements`: unique tag names of the
descendants of `document.body`, sorted alphabetically. -/
def getUniqueDomElements (body : Option DomNode) : List String :=
  let bodyElements := bodyElementsOf body
  let uniqueTagNames := setDedup (bodyElements.map DomNode.tagName)
  jsSort uniqueTagNames

/-- The options object of `getUniqueDomElementsRobust`.  A `none` field is
omitted (or explicitly `undefined`), so the destructuring default applies;
`container := some none` is an explicit `null` container. -/
structure RobustOptions where
  container : Option (Option DomNode) := none
  includeContainer : Option Bool := none
  toLowerCase : Option Bool := none
  sortResults : Option Bool := none

/-- OPTION 2 of the source, `getUniqueDomElementsRobust`: configurable unique
tag names; throws (`Except.error`) when the resolved container is absent. -/
def getUniqueDomElementsRobust (body : Option DomNode) (options : RobustOptions) :
    Except String (List String) :=
  let container : Option DomNode := options.container.getD body
  let includeContainer : Bool := options.includeContainer.getD false
  let toLower : Bool := options.toLowerCase.getD false
  let sortResults : Bool := options.sortResults.getD true
  match container with
  | none => Except.error "Container element not found"
  | some c =>
    let elements := querySelectorAllStar c
    let tagNames := elements.map fun el =>
      if toLower then jsToLowerCase el.tagName else el.tagName
    let tagNames :=
      if includeContainer then
        tagNames ++ [if toLower then jsToLowerCase c.tagName else c.tagName]
      else tagNames
    let unique := setDedup tagNames
    Except.ok (if sortResults then jsSort unique else unique)

/-- Assigning `acc[k] := v` on a JS object embedded as an association list:
an existing key is updated in place, a new key is appended. -/
def objAssign {β : Type} (m : List (String × β)) (k : String) (v : β) :
    List (String × β) :=
  match m with
  | [] => [(k, v)]
  | (k', v') :: rest => if k' = k then (k', v) :: rest else (k', v') :: objAssign rest k v

/-- The attribute-snapshot reduce of the source: fold the attribute pairs
into an object. -/
def attributesToObject (attrs : List (String × String)) : List (String × String) :=
  attrs.foldl (fun acc kv => objAssign acc kv.1 kv.2) []

/-- One value of the `elementMap` of `getUniqueDomElementsWithMetadata`. -/
structure TagMetadata where
  tagName : String
  count : Nat
  firstInstance : DomNode
  firstInstanceAttributes : List (String × String)
  firstInstanceClasses : List String

/-- `elementMap.get(tag).count++`: increment the count of the record with the
given tag (the map holds at most one). -/
def bumpCount (m : List TagMetadata) (tag : String) : List TagMetadata :=
  match m with
  | [] => []
  | e :: rest =>
    if e.tagName = tag then { e with count := e.count + 1 } :: rest
    else e :: bumpCount rest tag

/-- The fresh record stored on the first occurrence of a tag. -/
def newTagMetadata (el : DomNode) : TagMetadata :=
  { tagName := el.tagName
    count := 0
    firstInstance := el
    firstInstanceAttributes := attributesToObject el.attributes
    firstInstanceClasses := el.classList }

/-- One step of the `bodyElements.forEach` of the metadata builder: create
the record if the tag is new, then increment its count. -/
def elementMapInsert (m : List TagMetadata) (el : DomNode) : List TagMetadata :=
  let m' := if m.any (fun e => e.tagName == el.tagName) then m
            else m ++ [newTagMetadata el]
  bumpCount m' el.tagName

/-- The `elementMap` of `getUniqueDomElementsWithMetadata`, a JS `Map` in
insertion (first-seen) order. -/
def buildElementMap (els : List DomNode) : List TagMetadata :=
  els.foldl elementMapInsert []

/-- `a.tagName.localeCompare(b.tagName)` ascending, modelled with the
code-unit string order (they agree on ASCII tag names). -/
def byTagNameLe (a b : TagMetadata) : Prop := jsStrLe a.tagName b.tagName

instance : DecidableRel byTagNameLe := fun a b =>
  inferInstanceAs (Decidable (jsStrLe a.tagName b.tagName))

/-- The two shapes `getUniqueDomElementsWithMetadata` can return. -/
inductive MetadataResult where
  | tagsOnly (tags : List String)
  | withMetadata (records : List TagMetadata)

/-- OPTION 3 of the source, `getUniqueDomElementsWithMetadata`. -/
def getUniqueDomElementsWithMetadata (body : Option DomNode)
    (includeMetadata : Bool) : MetadataResult :=
  let bodyElements := bodyElementsOf body
  let elementMap := buildElementMap bodyElements
  if includeMetadata then
    MetadataResult.withMetadata (List.insertionSort byTagNameLe elementMap)
  else
    MetadataResult.tagsOnly (jsSort (elementMap.map TagMetadata.tagName))

/-- `tagCounts.set(tag, (tagCounts.get(tag) || 0) + 1)` on a JS `Map`
embedded as an association list in insertion order. -/
def mapIncr (m : List (String × Nat)) (tag : String) : List (String × Nat) :=
  match m with
  | [] => [(tag, 1)]
  | (k, v) :: rest =>
    if k = tag then (k, v + 1) :: rest else (k, v) :: mapIncr rest tag

/-- The `tagCounts` map of `analyzeDomStructure`: tag → occurrence count, in
first-seen order. -/
def tagCountsOf (els : List DomNode) : List (String × Nat) :=
  els.foldl (fun m el => mapIncr m el.tagName) []

/-- The comparator `(a, b) => b[1] - a[1]`: descending by count.  JS sort is
stable, and a stable insertion sort inserts an earlier element before the
later elements of equal count, matching it. -/
def byCountDesc (a b : String × Nat) : Prop := b.2 ≤ a.2

instance : DecidableRel byCountDesc := fun a b =>
  inferInstanceAs (Decidable (b.2 ≤ a.2))

/-- `Object.fromEntries`: successive key assignments into a fresh object. -/
def objectFromEntries (l : List (String × Nat)) : List (String × Nat) :=
  l.foldl (fun acc kv => objAssign acc kv.1 kv.2) []

mutual
/-- The recursive `calculateDepth` of `getMaxNestingDepth`: the running
`maxDepth` it produces is the greatest depth reached in the subtree, the
start node counting at `currentDepth`. -/
def calculateDepth : DomNode → Nat → Nat
  | .node _ _ _ cs, currentDepth => max currentDepth (childrenDepths cs (currentDepth + 1))
/-- The `[...element.children].forEach` loop: greatest depth over the
children's subtrees, each starting at `d` (0 when there are no children,
matching the untouched accumulator). -/
def childrenDepths : List DomNode → Nat → Nat
  | [], _ => 0
  | c :: cs, d => max (calculateDepth c d) (childrenDepths cs d)
end

/-- `getMaxNestingDepth` of the source: depth walk from `document.body` at
depth 0; 0 when the body is absent. -/
def getMaxNestingDepth (body : Option DomNode) : Nat :=
  match body with
  | some b => calculateDepth b 0
  | none => 0

/-- The record returned by `analyzeDomStructure`. -/
structure DomAnalysis where
  totalElements : Nat
  uniqueElements : Nat
  mostCommon : Option (String × Nat)
  leastCommon : Option (String × Nat)
  elementFrequency : List (String × Nat)
  deepestNesting : Nat

/-- The `analyzeDomStructure` utility of the source. -/
def analyzeDomStructure (body : Option DomNode) : DomAnalysis :=
  let bodyElements := bodyElementsOf body
  let tagCounts := tagCountsOf bodyElements
  let sortedByCount := List.insertionSort byCountDesc tagCounts
  { totalElements := bodyElements.length
    uniqueElements := tagCounts.length
    mostCommon := sortedByCount.head?
    leastCommon := sortedByCount.getLast?
    elementFrequency := objectFromEntries sortedByCount
    deepestNesting := getMaxNestingDepth body }

/-- `Map.get(k)` on an association-list map. -/
def mapGet? (m : List (String × Nat)) (k : String) : Option Nat :=
  match m with
  | [] => none
  | (k', v) :: rest => if k' = k then some v else mapGet? rest k

/-- The greatest occurrence count in a frequency list (0 when empty). -/
def greatestCount (l : List (String × Nat)) : Nat :=
  l.foldr (fun e m => max e.2 m) 0

/-- The least occurrence count in a nonempty frequency list (0 when empty). -/
def leastCount : List (String × Nat) → Nat
  | [] => 0
  | [e] => e.2
  | e :: es => min e.2 (leastCount es)

/-! ### Example documents used in witnesses and counterexamples -/

/-- A body holding a `DIV` with a nested `SPAN`, and a sibling `P`. -/
def exampleBody : DomNode :=
  .node "BODY" [] [] [.node "DIV" [] [] [.node "SPAN" [] [] []], .node "P" [] [] []]

/-- A body whose children are one `A` element and one `B` element. -/
def twoTagsBody : DomNode :=
  .node "BODY" [] [] [.node "A" [] [] [], .node "B" [] [] []]

/-- A body whose children are one `A` element and two `B` elements. -/
def freqBody : DomNode :=
  .node "BODY" [] [] [.node "A" [] [] [], .node "B" [] [] [], .node "B" [] [] []]

/-- A body whose children carry tag names that collide after lowercasing. -/
def mixedCaseBody : DomNode :=
  .node "BODY" [] [] [.node "A" [] [] [], .node "a" [] [] []]

/-! ### The code-unit string order is total and transitive -/

theorem charSeqLe_cons (x y : Char) (as bs : List Char) :
    charSeqLe (x :: as) (y :: bs) = true ↔
      x.toNat < y.toNat ∨ (x.toNat = y.toNat ∧ charSeqLe as bs = true) := by
  simp only [charSeqLe]
  split_ifs with h1 h2
  · simp [h1]
  · simp only [Bool.false_eq_true, false_iff]
    rintro (h | ⟨h, -⟩) <;> omega
  · have hxy : x.toNat = y.toNat := by omega
    simp [hxy]

theorem charSeqLe_total : ∀ a b : List Char, charSeqLe a b = true ∨ charSeqLe b a = true
  | [], _ => Or.inl rfl
  | _ :: _, [] => Or.inr rfl
  | x :: as, y :: bs => by
    rcases Nat.lt_trichotomy x.toNat y.toNat with h | h | h
    · exact Or.inl ((charSeqLe_cons x y as bs).mpr (Or.inl h))
    · rcases charSeqLe_total as bs with ih | ih
      · exact Or.inl ((charSeqLe_cons x y as bs).mpr (Or.inr ⟨h, ih⟩))
      · exact Or.inr ((charSeqLe_cons y x bs as).mpr (Or.inr ⟨h.symm, ih⟩))
    · exact Or.inr ((charSeqLe_cons y x bs as).mpr (Or.inl h))

theorem charSeqLe_trans : ∀ a b c : List Char, charSeqLe a b = true →
    charSeqLe b c = true → charSeqLe a c = true
  | [], _, _, _, _ => rfl
  | _ :: _, [], _, hab, _ => by simp [charSeqLe] at hab
  | _ :: _, _ :: _, [], _, hbc => by simp [charSeqLe] at hbc
  | x :: as, y :: bs, z :: cs, hab, hbc => by
    rw [charSeqLe_cons] at hab hbc ⊢
    rcases hab with h1 | ⟨h1, hab'⟩
    · rcases hbc with h2 | ⟨h2, -⟩
      · exact Or.inl (h1.trans h2)
      · exact Or.inl (by omega)
    · rcases hbc with h2 | ⟨h2, hbc'⟩
      · exact Or.inl (by omega)
      · exact Or.inr ⟨h1.trans h2, charSeqLe_trans as bs cs hab' hbc'⟩

instance : IsTotal String jsStrLe := ⟨fun a b => charSeqLe_total a.data b.data⟩

instance : IsTrans String jsStrLe :=
  ⟨fun a b c => charSeqLe_trans a.data b.data c.data⟩

instance : IsTotal TagMetadata byTagNameLe :=
  ⟨fun a b => charSeqLe_total a.tagName.data b.tagName.data⟩

instance : IsTrans TagMetadata byTagNameLe :=
  ⟨fun a b c => charSeqLe_trans a.tagName.data b.tagName.data c.tagName.data⟩

instance : IsTotal (String × Nat) byCountDesc := ⟨fun a b => le_total b.2 a.2⟩

instance : IsTrans (String × Nat) byCountDesc :=
  ⟨fun _ _ _ hab hbc => le_trans hbc hab⟩

/-! ### Properties of `jsSort` and `setDedup` -/

theorem jsSort_perm (l : List String) : List.Perm (jsSort l) l :=
  List.perm_insertionSort jsStrLe l

theorem jsSort_sorted (l : List String) : List.Sorted jsStrLe (jsSort l) :=
  List.sorted_insertionSort jsStrLe l

theorem mem_jsSort {x : String} {l : List String} : x ∈ jsSort l ↔ x ∈ l :=
  (jsSort_perm l).mem_iff

theorem jsSort_nodup {l : List String} (h : l.Nodup) : (jsSort l).Nodup :=
  ((jsSort_perm l).nodup_iff).mpr h

theorem mem_setDedupFold : ∀ (l acc : List String) (x : String),
    x ∈ l.foldl setDedupStep acc ↔ x ∈ acc ∨ x ∈ l
  | [], acc, x => by simp
  | s :: l, acc, x => by
    rw [List.foldl_cons, mem_setDedupFold l (setDedupStep acc s) x]
    unfold setDedupStep
    by_cases h : s ∈ acc
    · rw [if_pos h]
      constructor
      · rintro (hx | hx)
        · exact Or.inl hx
        · exact Or.inr (List.mem_cons_of_mem s hx)
      · rintro (hx | hx)
        · exact Or.inl hx
        · rcases List.mem_cons.mp hx with rfl | hx
          · exact Or.inl h
          · exact Or.inr hx
    · rw [if_neg h]
      simp only [List.mem_append, List.mem_singleton, List.mem_cons]
      tauto

theorem setDedupFold_nodup : ∀ (l acc : List String), acc.Nodup →
    (l.foldl setDedupStep acc).Nodup
  | [], _, h => h
  | s :: l, acc, h => by
    rw [List.foldl_cons]
    apply setDedupFold_nodup l
    unfold setDedupStep
    by_cases hs : s ∈ acc
    · rwa [if_pos hs]
    · rw [if_neg hs]
      simp [List.nodup_append, h, hs]

theorem mem_setDedup {x : String} {l : List String} : x ∈ setDedup l ↔ x ∈ l := by
  unfold setDedup
  rw [mem_setDedupFold]
  simp

theorem setDedup_nodup (l : List String) : (setDedup l).Nodup :=
  setDedupFold_nodup l [] List.nodup_nil

/-! ### C1: the basic listing -/

/-- C1: `getUniqueDomElements` returns the distinct tag labels of the
descendants of the default root, each exactly once, sorted ascending in the
code-unit (lexicographic) string order. -/
theorem getUniqueDomElements_unique_sorted (body : Option DomNode) :
    List.Sorted jsStrLe (getUniqueDomElements body) ∧
    (getUniqueDomElements body).Nodup ∧
    ∀ s, s ∈ getUniqueDomElements body ↔ ∃ el ∈ bodyElementsOf body, el.tagName = s := by
  refine ⟨jsSort_sorted _, jsSort_nodup (setDedup_nodup _), fun s => ?_⟩
  show s ∈ jsSort (setDedup ((bodyElementsOf body).map DomNode.tagName)) ↔ _
  rw [mem_jsSort, mem_setDedup, List.mem_map]

/-! ### C2: behavior when the default root is absent -/

/-- C2 counterexample: with the body absent, the basic listing returns the
empty result but the configurable listing with no container option does not:
it raises the missing-container error. -/
theorem robustDefaultMissingBodyThrows :
    getUniqueDomElements none = [] ∧
    getUniqueDomElementsRobust none {} = Except.error "Container element not found" :=
  ⟨rfl, rfl⟩

/-- C2 amended: when the default root is absent, the basic listing, the
metadata listing and the structure analysis all return the degenerate empty
result, while the configurable listing (even with no container option)
raises the missing-container error. -/
theorem emptyDefaultBehavior (opts : RobustOptions) (h : opts.container = none) :
    getUniqueDomElements none = [] ∧
    getUniqueDomElementsWithMetadata none false = MetadataResult.tagsOnly [] ∧
    getUniqueDomElementsWithMetadata none true = MetadataResult.withMetadata [] ∧
    analyzeDomStructure none = ⟨0, 0, none, none, [], 0⟩ ∧
    getUniqueDomElementsRobust none opts = Except.error "Container element not found" := by
  refine ⟨rfl, rfl, rfl, rfl, ?_⟩
  unfold getUniqueDomElementsRobust
  rw [h]
  rfl

/-- Witness for the amended C2 at a concrete empty options record. -/
theorem emptyDefaultBehaviorWitness :
    getUniqueDomElementsRobust none {} = Except.error "Container element not found" :=
  (emptyDefaultBehavior {} rfl).2.2.2.2

/-! ### C3: explicit null container -/

/-- C3: an explicitly null container makes `getUniqueDomElementsRobust`
raise the missing-container error, with no accompanying result. -/
theorem robustExplicitNullContainerThrows (body : Option DomNode)
    (opts : RobustOptions) (h : opts.container = some none) :
    getUniqueDomElementsRobust body opts = Except.error "Container element not found" := by
  unfold getUniqueDomElementsRobust
  rw [h]
  rfl

/-- Witness for C3 at a concrete document and options record. -/
theorem robustExplicitNullContainerThrowsWitness :
    getUniqueDomElementsRobust (some exampleBody) { container := some none } =
      Except.error "Container element not found" :=
  robustExplicitNullContainerThrows (some exampleBody) { container := some none } rfl

/-! ### C10: container resolution -/

/-- C10: the missing-container error occurs exactly when the resolved
container (the supplied one, or `document.body` when the field is
omitted/undefined) is absent, and an omitted container behaves like passing
`document.body` explicitly. -/
theorem robustContainerResolution (body : Option DomNode) (opts : RobustOptions) :
    (getUniqueDomElementsRobust body opts = Except.error "Container element not found" ↔
      opts.container.getD body = none) ∧
    (opts.container = none →
      getUniqueDomElementsRobust body opts =
        getUniqueDomElementsRobust body { opts with container := some body }) := by
  constructor
  · unfold getUniqueDomElementsRobust
    cases hc : opts.container.getD body with
    | none => simp
    | some c => simp
  · intro h
    unfold getUniqueDomElementsRobust
    rw [h]
    rfl

/-- Witness for C10: on a concrete document, omitting the container gives
the same result as passing the body explicitly. -/
theorem robustContainerResolutionWitness :
    getUniqueDomElementsRobust (some exampleBody) {} =
      getUniqueDomElementsRobust (some exampleBody) { container := some (some exampleBody) } :=
  (robustContainerResolution (some exampleBody) {}).2 rfl

/-! ### Extremes of the frequency list -/

theorem greatestCount_cons (e : String × Nat) (l : List (String × Nat)) :
    greatestCount (e :: l) = max e.2 (greatestCount l) := rfl

theorem exists_snd_eq_greatestCount : ∀ (l : List (String × Nat)), l ≠ [] →
    ∃ e ∈ l, e.2 = greatestCount l
  | [], h => absurd rfl h
  | [e], _ => ⟨e, List.mem_singleton_self e, by simp [greatestCount]⟩
  | e :: e' :: es, _ => by
    rcases le_total (greatestCount (e' :: es)) e.2 with h | h
    · exact ⟨e, List.mem_cons_self e (e' :: es), by
        rw [greatestCount_cons, max_eq_left h]⟩
    · obtain ⟨x, hx, hx2⟩ := exists_snd_eq_greatestCount (e' :: es) (by simp)
      exact ⟨x, List.mem_cons_of_mem e hx, by
        rw [greatestCount_cons, max_eq_right h, hx2]⟩

theorem leastCount_pair (e e' : String × Nat) (es : List (String × Nat)) :
    leastCount (e :: e' :: es) = min e.2 (leastCount (e' :: es)) := rfl

theorem leastCount_le : ∀ (l : List (String × Nat)), ∀ e ∈ l, leastCount l ≤ e.2
  | [], e, he => absurd he (List.not_mem_nil e)
  | [x], e, he => by
    rw [List.mem_singleton] at he
    subst he
    exact le_refl _
  | x :: x' :: es, e, he => by
    rw [leastCount_pair]
    rcases List.mem_cons.mp he with rfl | he'
    · exact min_le_left _ _
    · exact le_trans (min_le_right _ _) (leastCount_le (x' :: es) e he')

theorem exists_snd_eq_leastCount : ∀ (l : List (String × Nat)), l ≠ [] →
    ∃ e ∈ l, e.2 = leastCount l
  | [], h => absurd rfl h
  | [e], _ => ⟨e, List.mem_singleton_self e, rfl⟩
  | e :: e' :: es, _ => by
    rcases le_total e.2 (leastCount (e' :: es)) with h | h
    · exact ⟨e, List.mem_cons_self e (e' :: es), by
        rw [leastCount_pair, min_eq_left h]⟩
    · obtain ⟨x, hx, hx2⟩ := exists_snd_eq_leastCount (e' :: es) (by simp)
      exact ⟨x, List.mem_cons_of_mem e hx, by
        rw [leastCount_pair, min_eq_right h, hx2]⟩

/-! ### Head and last element of the stable count-descending sort -/

theorem find?_cons_eq {α : Type} (p : α → Bool) (a : α) (l : List α) :
    (a :: l).find? p = if p a then some a else l.find? p := by
  rw [List.find?_cons]
  by_cases h : p a
  · rw [if_pos h, h]
  · rw [if_neg h]
    cases hpa : p a
    · rfl
    · exact absurd hpa h

theorem orderedInsert_cons_eq {α : Type} (r : α → α → Prop) [DecidableRel r]
    (a b : α) (l : List α) :
    List.orderedInsert r a (b :: l) =
      if r a b then a :: b :: l else b :: List.orderedInsert r a l := rfl

theorem insertionSort_byCountDesc_head? :
    ∀ l : List (String × Nat),
      (List.insertionSort byCountDesc l).head? =
        l.find? (fun e => e.2 == greatestCount l)
  | [] => rfl
  | [e] => by
    have h1 : greatestCount [e] = e.2 := by simp [greatestCount]
    rw [h1, find?_cons_eq]
    simp [List.insertionSort, List.orderedInsert]
  | e :: e' :: es => by
    have hne : (e' :: es) ≠ ([] : List (String × Nat)) := by simp
    have IH := insertionSort_byCountDesc_head? (e' :: es)
    obtain ⟨x, hxmem, hx2⟩ := exists_snd_eq_greatestCount (e' :: es) hne
    have hsome : (((e' :: es).find? (fun q => q.2 == greatestCount (e' :: es)))).isSome := by
      rw [List.find?_isSome]
      exact ⟨x, hxmem, by simp [hx2]⟩
    obtain ⟨b, hb⟩ := Option.isSome_iff_exists.mp hsome
    have hb2 : b.2 = greatestCount (e' :: es) := by simpa using List.find?_some hb
    have hh : (List.insertionSort byCountDesc (e' :: es)).head? = some b := by
      rw [IH, hb]
    obtain ⟨t, ht⟩ : ∃ t, List.insertionSort byCountDesc (e' :: es) = b :: t := by
      cases hs : List.insertionSort byCountDesc (e' :: es) with
      | nil => rw [hs] at hh; exact absurd hh (by simp)
      | cons hd tl =>
        rw [hs] at hh
        obtain rfl : hd = b := by simpa using hh
        exact ⟨tl, rfl⟩
    have hstep : List.insertionSort byCountDesc (e :: e' :: es) =
        List.orderedInsert byCountDesc e (List.insertionSort byCountDesc (e' :: es)) := rfl
    rw [hstep, ht]
    by_cases hge : greatestCount (e' :: es) ≤ e.2
    · have hr : byCountDesc e b := by
        show b.2 ≤ e.2
        rw [hb2]
        exact hge
      have hmax : greatestCount (e :: e' :: es) = e.2 := by
        rw [greatestCount_cons, max_eq_left hge]
      rw [orderedInsert_cons_eq, if_pos hr, hmax, find?_cons_eq]
      simp
    · have hlt : e.2 < greatestCount (e' :: es) := lt_of_not_le hge
      have hr : ¬ byCountDesc e b := by
        show ¬ b.2 ≤ e.2
        rw [hb2]
        omega
      have hmax : greatestCount (e :: e' :: es) = greatestCount (e' :: es) := by
        rw [greatestCount_cons, max_eq_right (le_of_lt hlt)]
      rw [orderedInsert_cons_eq, if_neg hr, hmax, find?_cons_eq]
      have hfalse : (e.2 == greatestCount (e' :: es)) = false := by
        simp
        omega
      rw [hfalse]
      simp [hb]

theorem orderedInsert_byCountDesc_getLast? (e : String × Nat) :
    ∀ (l : List (String × Nat)) (b : String × Nat), List.Sorted byCountDesc l →
      l.getLast? = some b →
      (List.orderedInsert byCountDesc e l).getLast? =
        if byCountDesc e b then some b else some e
  | [], b, _, hb => by simp at hb
  | [c], b, _, hb => by
    obtain rfl : c = b := by simpa using hb
    rw [orderedInsert_cons_eq]
    by_cases h : byCountDesc e c
    · rw [if_pos h, if_pos h]
      rfl
    · rw [if_neg h, if_neg h]
      rfl
  | c :: c' :: l, b, hsorted, hb => by
    rw [List.getLast?_cons_cons] at hb
    have hs' : List.Sorted byCountDesc (c' :: l) := (List.sorted_cons.mp hsorted).2
    have hbm : b ∈ c' :: l := by
      obtain ⟨hne, heq⟩ := List.mem_getLast?_eq_getLast (Option.mem_def.mpr hb)
      rw [heq]
      exact List.getLast_mem hne
    have hcb : byCountDesc c b := (List.sorted_cons.mp hsorted).1 b hbm
    by_cases h : byCountDesc e c
    · have heb : byCountDesc e b := le_trans (hcb : b.2 ≤ c.2) (h : c.2 ≤ e.2)
      rw [orderedInsert_cons_eq, if_pos h, if_pos heb, List.getLast?_cons_cons,
        List.getLast?_cons_cons, hb]
    · rw [orderedInsert_cons_eq, if_neg h]
      have IH := orderedInsert_byCountDesc_getLast? e (c' :: l) b hs' hb
      obtain ⟨d, ds, hds⟩ : ∃ d ds, List.orderedInsert byCountDesc e (c' :: l) = d :: ds := by
        cases hoi : List.orderedInsert byCountDesc e (c' :: l) with
        | nil =>
          have hne2 : List.orderedInsert byCountDesc e (c' :: l) ≠ [] := by
            rw [orderedInsert_cons_eq]
            split <;> simp
          exact absurd hoi hne2
        | cons d ds => exact ⟨d, ds, rfl⟩
      rw [hds, List.getLast?_cons_cons, ← hds, IH]

theorem insertionSort_byCountDesc_getLast? :
    ∀ l : List (String × Nat),
      (List.insertionSort byCountDesc l).getLast? =
        l.reverse.find? (fun e => e.2 == leastCount l)
  | [] => rfl
  | [e] => by
    have h1 : leastCount [e] = e.2 := rfl
    rw [h1, List.reverse_singleton, find?_cons_eq]
    simp [List.insertionSort, List.orderedInsert]
  | e :: e' :: es => by
    have hne : (e' :: es) ≠ ([] : List (String × Nat)) := by simp
    have IH := insertionSort_byCountDesc_getLast? (e' :: es)
    obtain ⟨x, hxmem, hx2⟩ := exists_snd_eq_leastCount (e' :: es) hne
    have hsome : (((e' :: es).reverse.find? (fun q => q.2 == leastCount (e' :: es)))).isSome := by
      rw [List.find?_isSome]
      exact ⟨x, List.mem_reverse.mpr hxmem, by simp [hx2]⟩
    obtain ⟨b, hb⟩ := Option.isSome_iff_exists.mp hsome
    have hb2 : b.2 = leastCount (e' :: es) := by simpa using List.find?_some hb
    have hlast : (List.insertionSort byCountDesc (e' :: es)).getLast? = some b := by
      rw [IH, hb]
    have hstep : List.insertionSort byCountDesc (e :: e' :: es) =
        List.orderedInsert byCountDesc e (List.insertionSort byCountDesc (e' :: es)) := rfl
    have hsorted : List.Sorted byCountDesc (List.insertionSort byCountDesc (e' :: es)) :=
      List.sorted_insertionSort byCountDesc (e' :: es)
    rw [hstep, orderedInsert_byCountDesc_getLast? e _ b hsorted hlast]
    by_cases hc : leastCount (e' :: es) ≤ e.2
    · have hr : byCountDesc e b := by
        show b.2 ≤ e.2
        rw [hb2]
        exact hc
      have hmin : leastCount (e :: e' :: es) = leastCount (e' :: es) := by
        rw [leastCount_pair, min_eq_right hc]
      rw [if_pos hr, hmin, List.reverse_cons, List.find?_append, hb]
      rfl
    · have hlt : e.2 < leastCount (e' :: es) := lt_of_not_le hc
      have hr : ¬ byCountDesc e b := by
        show ¬ b.2 ≤ e.2
        rw [hb2]
        omega
      have hmin : leastCount (e :: e' :: es) = e.2 := by
        rw [leastCount_pair, min_eq_left (le_of_lt hlt)]
      rw [if_neg hr, hmin, List.reverse_cons, List.find?_append]
      have hnone : ((e' :: es).reverse.find? (fun q => q.2 == e.2)) = none := by
        rw [List.find?_eq_none]
        intro q hq
        have hqm : q ∈ e' :: es := List.mem_reverse.mp hq
        have hqe := leastCount_le (e' :: es) q hqm
        simp
        omega
      rw [hnone]
      simp [find?_cons_eq]

/-! ### C4: most and least frequent -/

/-- C4 counterexample: with two labels of equal (minimal) count, the
least-frequent entry is the last-seen one, not the first-seen one: the
first-seen order is `A` then `B` (both with count 1), yet `leastCommon`
is `B`. -/
theorem leastCommonTieBreak_counterexample :
    (analyzeDomStructure (some twoTagsBody)).leastCommon = some ("B", 1) ∧
    tagCountsOf (bodyElementsOf (some twoTagsBody)) = [("A", 1), ("B", 1)] :=
  ⟨rfl, rfl⟩

/-- C4 amended: `mostFrequent` is the first-seen entry attaining the maximal
occurrence count, while `leastFrequent` is the last-seen entry attaining the
minimal occurrence count (the stable count-descending sort places later-seen
entries of equal count later). -/
theorem frequencyExtremes (body : Option DomNode) :
    (analyzeDomStructure body).mostCommon =
      (tagCountsOf (bodyElementsOf body)).find?
        (fun e => e.2 == greatestCount (tagCountsOf (bodyElementsOf body))) ∧
    (analyzeDomStructure body).leastCommon =
      (tagCountsOf (bodyElementsOf body)).reverse.find?
        (fun e => e.2 == leastCount (tagCountsOf (bodyElementsOf body))) := by
  constructor
  · show (List.insertionSort byCountDesc (tagCountsOf (bodyElementsOf body))).head? = _
    exact insertionSort_byCountDesc_head? _
  · show (List.insertionSort byCountDesc (tagCountsOf (bodyElementsOf body))).getLast? = _
    exact insertionSort_byCountDesc_getLast? _

/-! ### The frequency map: keys, lookups and sums -/

theorem mapIncr_keys : ∀ (m : List (String × Nat)) (tag : String),
    (mapIncr m tag).map Prod.fst =
      if tag ∈ m.map Prod.fst then m.map Prod.fst else m.map Prod.fst ++ [tag]
  | [], tag => by simp [mapIncr]
  | (k, v) :: rest, tag => by
    by_cases h : k = tag
    · subst h
      simp [mapIncr]
    · simp only [mapIncr, if_neg h, List.map_cons]
      rw [mapIncr_keys rest tag]
      by_cases hm : tag ∈ rest.map Prod.fst
      · rw [if_pos hm, if_pos (by simp [hm])]
      · rw [if_neg hm, if_neg (by
          simp only [List.mem_cons]
          rintro (rfl | hmem)
          · exact h rfl
          · exact hm hmem)]
        simp

theorem mapGet?_cons (k' : String) (v : Nat) (rest : List (String × Nat)) (k : String) :
    mapGet? ((k', v) :: rest) k = if k' = k then some v else mapGet? rest k := rfl

theorem mapIncr_cons (k : String) (v : Nat) (rest : List (String × Nat)) (tag : String) :
    mapIncr ((k, v) :: rest) tag =
      if k = tag then (k, v + 1) :: rest else (k, v) :: mapIncr rest tag := rfl

theorem mapGet?_mapIncr : ∀ (m : List (String × Nat)) (tag k : String),
    mapGet? (mapIncr m tag) k =
      if k = tag then some ((mapGet? m k).getD 0 + 1) else mapGet? m k
  | [], tag, k => by
    by_cases h : k = tag
    · subst h
      rw [if_pos rfl]
      show mapGet? [(k, 1)] k = _
      rw [mapGet?_cons, if_pos rfl]
      rfl
    · rw [if_neg h]
      show mapGet? [(tag, 1)] k = mapGet? [] k
      rw [mapGet?_cons, if_neg (fun hh => h hh.symm)]
  | (k', v) :: rest, tag, k => by
    by_cases h1 : k' = tag
    · subst h1
      rw [show mapIncr ((k', v) :: rest) k' = (k', v + 1) :: rest from by
        rw [mapIncr_cons, if_pos rfl]]
      by_cases h2 : k' = k
      · subst h2
        rw [mapGet?_cons, if_pos rfl, if_pos rfl]
        simp only [mapGet?_cons, if_pos rfl]
        rfl
      · simp only [mapGet?_cons, if_neg h2]
        rw [if_neg (fun hh => h2 hh.symm)]
    · rw [show mapIncr ((k', v) :: rest) tag = (k', v) :: mapIncr rest tag from by
        rw [mapIncr_cons, if_neg h1]]
      by_cases h2 : k' = k
      · subst h2
        simp only [mapGet?_cons, if_pos rfl]
        rw [if_neg h1]
        simp
      · simp only [mapGet?_cons, if_neg h2]
        exact mapGet?_mapIncr rest tag k

theorem sum_mapIncr : ∀ (m : List (String × Nat)) (tag : String),
    ((mapIncr m tag).map Prod.snd).sum = ((m.map Prod.snd)).sum + 1
  | [], tag => by simp [mapIncr]
  | (k, v) :: rest, tag => by
    by_cases h : k = tag
    · simp [mapIncr, h]
      try omega
    · simp [mapIncr, h, sum_mapIncr rest tag]
      try omega

theorem tagCountsFold_keys_nodup : ∀ (els : List DomNode) (m : List (String × Nat)),
    (m.map Prod.fst).Nodup →
    ((els.foldl (fun m el => mapIncr m el.tagName) m).map Prod.fst).Nodup
  | [], _, h => h
  | el :: els, m, h => by
    rw [List.foldl_cons]
    apply tagCountsFold_keys_nodup els
    rw [mapIncr_keys]
    by_cases hm : el.tagName ∈ m.map Prod.fst
    · rwa [if_pos hm]
    · rw [if_neg hm]
      simp [List.nodup_append, h, hm]

theorem tagCountsFold_sum : ∀ (els : List DomNode) (m : List (String × Nat)),
    ((els.foldl (fun m el => mapIncr m el.tagName) m).map Prod.snd).sum =
      (m.map Prod.snd).sum + els.length
  | [], m => by simp
  | el :: els, m => by
    rw [List.foldl_cons, tagCountsFold_sum els (mapIncr m el.tagName), sum_mapIncr]
    simp
    omega

theorem tagCountsFold_get : ∀ (els : List DomNode) (m : List (String × Nat)) (k : String),
    mapGet? (els.foldl (fun m el => mapIncr m el.tagName) m) k =
      if ((els.map DomNode.tagName).count k) = 0 then mapGet? m k
      else some ((mapGet? m k).getD 0 + (els.map DomNode.tagName).count k)
  | [], m, k => by simp
  | el :: els, m, k => by
    rw [List.foldl_cons, tagCountsFold_get els (mapIncr m el.tagName) k, mapGet?_mapIncr]
    by_cases h : k = el.tagName
    · have hcount : ((el :: els).map DomNode.tagName).count k =
          (els.map DomNode.tagName).count k + 1 := by
        simp [List.count_cons, h]
      simp only [if_pos h]
      rw [hcount]
      have hne1 : ¬ ((els.map DomNode.tagName).count k + 1 = 0) := by omega
      by_cases h0 : (els.map DomNode.tagName).count k = 0
      · rw [if_pos h0, if_neg hne1, h0]
      · rw [if_neg h0, if_neg hne1]
        simp only [Option.getD_some, Option.some.injEq]
        omega
    · have hcount : ((el :: els).map DomNode.tagName).count k =
          (els.map DomNode.tagName).count k := by
        rw [List.map_cons, List.count_cons]
        have hbeq : (el.tagName == k) = false := by
          simp
          exact fun hh => h hh.symm
        rw [hbeq]
        simp
      simp only [if_neg h]
      rw [hcount]

theorem mapGet?_tagCountsOf (els : List DomNode) (k : String) :
    mapGet? (tagCountsOf els) k =
      if ((els.map DomNode.tagName).count k) = 0 then none
      else some ((els.map DomNode.tagName).count k) := by
  unfold tagCountsOf
  rw [tagCountsFold_get]
  simp [mapGet?]

theorem tagCountsOf_keys_nodup (els : List DomNode) :
    ((tagCountsOf els).map Prod.fst).Nodup :=
  tagCountsFold_keys_nodup els [] (by simp)

theorem mapGet?_eq_none_iff : ∀ (m : List (String × Nat)) (k : String),
    mapGet? m k = none ↔ k ∉ m.map Prod.fst
  | [], k => by simp [mapGet?]
  | (k', v) :: rest, k => by
    by_cases h : k' = k
    · subst h
      simp [mapGet?]
    · rw [show mapGet? ((k', v) :: rest) k = mapGet? rest k from by simp [mapGet?, h]]
      rw [mapGet?_eq_none_iff rest k]
      simp only [List.map_cons, List.mem_cons, not_or]
      constructor
      · exact fun hm => ⟨fun hh => h hh.symm, hm⟩
      · exact fun hm => hm.2

theorem mapGet?_eq_some_iff : ∀ (m : List (String × Nat)), (m.map Prod.fst).Nodup →
    ∀ (k : String) (v : Nat), (mapGet? m k = some v ↔ (k, v) ∈ m)
  | [], _, k, v => by simp [mapGet?]
  | (k', v') :: rest, hn, k, v => by
    have hn' : (rest.map Prod.fst).Nodup := (List.nodup_cons.mp (by simpa using hn)).2
    have hk' : k' ∉ rest.map Prod.fst := (List.nodup_cons.mp (by simpa using hn)).1
    by_cases h : k' = k
    · subst h
      constructor
      · intro hv
        obtain rfl : v' = v := by simpa [mapGet?] using hv
        exact List.mem_cons_self _ _
      · intro hv
        rcases List.mem_cons.mp hv with heq | hmem
        · obtain ⟨-, rfl⟩ : k' = k' ∧ v = v' := by simpa [Prod.ext_iff] using heq
          simp [mapGet?]
        · exact absurd (List.mem_map.mpr ⟨(k', v), hmem, rfl⟩) hk'
    · rw [show mapGet? ((k', v') :: rest) k = mapGet? rest k from by simp [mapGet?, h]]
      rw [mapGet?_eq_some_iff rest hn' k v]
      constructor
      · exact fun hm => List.mem_cons_of_mem _ hm
      · intro hm
        rcases List.mem_cons.mp hm with heq | hmem
        · have hkk : k = k' ∧ v = v' := by simpa [Prod.ext_iff] using heq
          exact absurd hkk.1.symm h
        · exact hmem

theorem mapGet?_of_perm {m m' : List (String × Nat)} (hp : List.Perm m m')
    (hn : (m'.map Prod.fst).Nodup) (k : String) : mapGet? m k = mapGet? m' k := by
  have hn' : (m.map Prod.fst).Nodup := ((hp.map Prod.fst).nodup_iff).mpr hn
  cases hv : mapGet? m' k with
  | none =>
    rw [mapGet?_eq_none_iff] at hv ⊢
    exact fun hk => hv ((hp.map Prod.fst).mem_iff.mp hk)
  | some v =>
    rw [mapGet?_eq_some_iff m' hn k v] at hv
    rw [mapGet?_eq_some_iff m hn' k v]
    exact hp.mem_iff.mpr hv

/-! ### `Object.fromEntries` over distinct keys -/

theorem objAssign_of_notMem {β : Type} : ∀ (m : List (String × β)) (k : String) (v : β),
    k ∉ m.map Prod.fst → objAssign m k v = m ++ [(k, v)]
  | [], _, _, _ => rfl
  | (k', v') :: rest, k, v, h => by
    have h1 : ¬ k' = k := by
      intro hh
      subst hh
      exact h (by simp)
    have h2 : k ∉ rest.map Prod.fst := fun hm => h (by simp [hm])
    simp [objAssign, h1, objAssign_of_notMem rest k v h2]

theorem objFold_eq_append {β : Type} : ∀ (l acc : List (String × β)),
    ((acc ++ l).map Prod.fst).Nodup →
    l.foldl (fun acc kv => objAssign acc kv.1 kv.2) acc = acc ++ l
  | [], acc, _ => by simp
  | (k, v) :: rest, acc, h => by
    have hk : k ∉ acc.map Prod.fst := by
      rw [List.map_append, List.nodup_append] at h
      intro hmem
      exact h.2.2 hmem (by simp)
    rw [List.foldl_cons]
    have hstep : objAssign acc (k, v).1 (k, v).2 = acc ++ [(k, v)] :=
      objAssign_of_notMem acc k v hk
    rw [hstep, objFold_eq_append rest (acc ++ [(k, v)]) (by
      rw [List.append_assoc, List.singleton_append]
      exact h)]
    simp

theorem objectFromEntries_eq_self (l : List (String × Nat))
    (h : (l.map Prod.fst).Nodup) : objectFromEntries l = l := by
  unfold objectFromEntries
  have := objFold_eq_append l [] (by simpa using h)
  simpa using this

/-- The frequency table of `analyzeDomStructure` is the count-descending
sorted list of the first-seen tag counts. -/
theorem elementFrequency_eq_sorted (body : Option DomNode) :
    (analyzeDomStructure body).elementFrequency =
      List.insertionSort byCountDesc (tagCountsOf (bodyElementsOf body)) := by
  have hperm : List.Perm
      (List.insertionSort byCountDesc (tagCountsOf (bodyElementsOf body)))
      (tagCountsOf (bodyElementsOf body)) :=
    List.perm_insertionSort byCountDesc _
  have hnodup' : ((List.insertionSort byCountDesc
      (tagCountsOf (bodyElementsOf body))).map Prod.fst).Nodup :=
    ((hperm.map Prod.fst).nodup_iff).mpr (tagCountsOf_keys_nodup _)
  show objectFromEntries _ = _
  exact objectFromEntries_eq_self _ hnodup'

/-! ### C5: the frequency table -/

/-- C5 counterexample: the first-seen order of the labels is `A` then `B`,
yet the frequency table lists `B` first (count-descending order), so its
entries are not in first-seen order. -/
theorem elementFrequencyOrder_counterexample :
    (analyzeDomStructure (some freqBody)).elementFrequency = [("B", 2), ("A", 1)] ∧
    tagCountsOf (bodyElementsOf (some freqBody)) = [("A", 1), ("B", 2)] :=
  ⟨rfl, rfl⟩

/-- C5 amended: the frequency table maps each distinct label to its
occurrence count, but its entries appear in the stable count-descending
order of `sortedByCount`, not in first-seen order. -/
theorem elementFrequencyCharacterization (body : Option DomNode) :
    (analyzeDomStructure body).elementFrequency =
      List.insertionSort byCountDesc (tagCountsOf (bodyElementsOf body)) ∧
    ∀ tag, mapGet? ((analyzeDomStructure body).elementFrequency) tag =
      (if ((bodyElementsOf body).map DomNode.tagName).count tag = 0 then none
       else some (((bodyElementsOf body).map DomNode.tagName).count tag)) := by
  have hperm : List.Perm
      (List.insertionSort byCountDesc (tagCountsOf (bodyElementsOf body)))
      (tagCountsOf (bodyElementsOf body)) :=
    List.perm_insertionSort byCountDesc _
  refine ⟨elementFrequency_eq_sorted body, fun tag => ?_⟩
  rw [elementFrequency_eq_sorted body,
    mapGet?_of_perm hperm (tagCountsOf_keys_nodup _) tag, mapGet?_tagCountsOf]

/-! ### C6: the total element count -/

/-- C6: `totalElements` is the number of descendants the traversal visits,
and equals the sum of the occurrence counts over the returned frequency
table. -/
theorem totalElementCountConsistency (body : Option DomNode) :
    (analyzeDomStructure body).totalElements = (bodyElementsOf body).length ∧
    (analyzeDomStructure body).totalElements =
      (((analyzeDomStructure body).elementFrequency).map Prod.snd).sum := by
  refine ⟨rfl, ?_⟩
  rw [elementFrequency_eq_sorted body]
  have hperm : List.Perm
      (List.insertionSort byCountDesc (tagCountsOf (bodyElementsOf body)))
      (tagCountsOf (bodyElementsOf body)) :=
    List.perm_insertionSort byCountDesc _
  rw [(hperm.map Prod.snd).sum_eq]
  show (bodyElementsOf body).length = _
  unfold tagCountsOf
  rw [tagCountsFold_sum]
  simp

/-! ### Nesting depth -/

mutual
theorem calculateDepth_succ : ∀ (t : DomNode) (d : Nat),
    calculateDepth t (d + 1) = calculateDepth t d + 1
  | .node _ _ _ [], d => by
    simp [calculateDepth, childrenDepths]
  | .node _ _ _ (c :: cs), d => by
    rw [show calculateDepth (.node _ _ _ (c :: cs)) (d + 1) =
          max (d + 1) (childrenDepths (c :: cs) (d + 1 + 1)) from rfl,
        show calculateDepth (.node _ _ _ (c :: cs)) d =
          max d (childrenDepths (c :: cs) (d + 1)) from rfl,
        childrenDepths_succ (c :: cs) (d + 1) (by simp), Nat.succ_max_succ]
theorem childrenDepths_succ : ∀ (cs : List DomNode) (d : Nat), cs ≠ [] →
    childrenDepths cs (d + 1) = childrenDepths cs d + 1
  | [c], d, _ => by
    rw [show childrenDepths [c] (d + 1) =
          max (calculateDepth c (d + 1)) (childrenDepths [] (d + 1)) from rfl,
        show childrenDepths [c] d = max (calculateDepth c d) (childrenDepths [] d) from rfl,
        calculateDepth_succ c d]
    simp [childrenDepths]
  | c :: c' :: cs, d, _ => by
    rw [show childrenDepths (c :: c' :: cs) (d + 1) =
          max (calculateDepth c (d + 1)) (childrenDepths (c' :: cs) (d + 1)) from rfl,
        show childrenDepths (c :: c' :: cs) d =
          max (calculateDepth c d) (childrenDepths (c' :: cs) d) from rfl,
        calculateDepth_succ c d, childrenDepths_succ (c' :: cs) d (by simp),
        Nat.succ_max_succ]
end

theorem calculateDepth_shift (t : DomNode) : ∀ d : Nat,
    calculateDepth t d = calculateDepth t 0 + d
  | 0 => rfl
  | d + 1 => by rw [calculateDepth_succ, calculateDepth_shift t d, Nat.add_assoc]

theorem childrenDepths_all_leaves : ∀ (cs : List DomNode),
    (∀ c ∈ cs, c.children = []) → cs ≠ [] → childrenDepths cs 1 = 1
  | [c], h, _ => by
    obtain ⟨t, a, cl, cs', rfl⟩ : ∃ t a cl cs', c = DomNode.node t a cl cs' := by
      cases c with
      | node t a cl cs' => exact ⟨t, a, cl, cs', rfl⟩
    have hc : cs' = [] := h _ (List.mem_singleton_self _)
    subst hc
    rfl
  | c :: c' :: cs, h, _ => by
    obtain ⟨t, a, cl, cs', rfl⟩ : ∃ t a cl cs', c = DomNode.node t a cl cs' := by
      cases c with
      | node t a cl cs' => exact ⟨t, a, cl, cs', rfl⟩
    have hc : cs' = [] := h _ (List.mem_cons_self _ _)
    subst hc
    rw [show childrenDepths (DomNode.node t a cl [] :: c' :: cs) 1 =
          max (calculateDepth (DomNode.node t a cl []) 1) (childrenDepths (c' :: cs) 1) from rfl,
        childrenDepths_all_leaves (c' :: cs) (fun x hx => h x (List.mem_cons_of_mem _ hx)) (by simp)]
    rfl

/-! ### C7: the nesting-depth computation -/

/-- C7: the depth walk starts at 0 at the root and each child level adds 1:
an absent root gives depth 0, a root with no children gives 0, and a root
whose children are all leaves gives 1. -/
theorem maxNestingDepthBehavior :
    getMaxNestingDepth none = 0 ∧
    (∀ tag attrs classes, getMaxNestingDepth (some (DomNode.node tag attrs classes [])) = 0) ∧
    (∀ tag attrs classes children, children ≠ [] →
        (∀ c ∈ children, c.children = []) →
        getMaxNestingDepth (some (DomNode.node tag attrs classes children)) = 1) ∧
    (∀ t d, calculateDepth t d = calculateDepth t 0 + d) := by
  refine ⟨rfl, fun tag attrs classes => rfl, fun tag attrs classes children hne hlv => ?_,
    fun t d => calculateDepth_shift t d⟩
  show calculateDepth (DomNode.node tag attrs classes children) 0 = 1
  rw [show calculateDepth (DomNode.node tag attrs classes children) 0 =
        max 0 (childrenDepths children 1) from rfl,
      childrenDepths_all_leaves children hlv hne]
  simp

/-- Witness for C7 at a concrete one-level document. -/
theorem maxNestingDepthBehaviorWitness :
    getMaxNestingDepth (some (DomNode.node "BODY" [] [] [DomNode.node "P" [] [] []])) = 1 :=
  maxNestingDepthBehavior.2.2.1 "BODY" [] [] [DomNode.node "P" [] [] []] (by simp)
    (by
      intro c hc
      rw [List.mem_singleton] at hc
      subst hc
      rfl)

/-! ### C8: the toLowerCase option -/

/-- The configurable listing, when the resolved container exists, returns
the (optionally sorted) dedup of the mapped tag-name list. -/
theorem robust_ok_eq (body : Option DomNode) (opts : RobustOptions) (c : DomNode)
    (hc : opts.container.getD body = some c) :
    getUniqueDomElementsRobust body opts = Except.ok
      (let tagNames := (querySelectorAllStar c).map fun el =>
        if opts.toLowerCase.getD false then jsToLowerCase el.tagName else el.tagName
      let tagNames :=
        if opts.includeContainer.getD false then
          tagNames ++ [if opts.toLowerCase.getD false then jsToLowerCase c.tagName else c.tagName]
        else tagNames
      if opts.sortResults.getD true then jsSort (setDedup tagNames) else setDedup tagNames) := by
  unfold getUniqueDomElementsRobust
  rw [hc]

/-- C8 counterexample: two distinct labels that collide after lowercasing
give an uppercase-mode result of two labels but a lowercase-mode result of
one, so the lowercase transform is not a bijection between the result sets
and the results do not correspond label by label. -/
theorem toLowerCaseBijection_counterexample :
    getUniqueDomElementsRobust (some mixedCaseBody) { toLowerCase := some false } =
      Except.ok ["A", "a"] ∧
    getUniqueDomElementsRobust (some mixedCaseBody) { toLowerCase := some true } =
      Except.ok ["a"] :=
  ⟨rfl, rfl⟩

/-- C8 amended: the lowercase-mode result set is exactly the image of the
uppercase-mode result set under the lowercase transform (a bijection only
when no two labels collide after lowercasing). -/
theorem toLowerCaseImage (body : Option DomNode) (opts : RobustOptions)
    (lu ll : List String)
    (hu : getUniqueDomElementsRobust body { opts with toLowerCase := some false } =
      Except.ok lu)
    (hl : getUniqueDomElementsRobust body { opts with toLowerCase := some true } =
      Except.ok ll)
    (s : String) :
    s ∈ ll ↔ ∃ t ∈ lu, jsToLowerCase t = s := by
  cases hco : opts.container.getD body with
  | none =>
    have herr : getUniqueDomElementsRobust body { opts with toLowerCase := some false } =
        Except.error "Container element not found" := by
      unfold getUniqueDomElementsRobust
      rw [show ({ opts with toLowerCase := some false } : RobustOptions).container =
        opts.container from rfl, hco]
    rw [herr] at hu
    simp at hu
  | some c =>
    have hcu : ({ opts with toLowerCase := some false } : RobustOptions).container.getD body =
        some c := by
      rw [show ({ opts with toLowerCase := some false } : RobustOptions).container =
        opts.container from rfl, hco]
    have hcl : ({ opts with toLowerCase := some true } : RobustOptions).container.getD body =
        some c := by
      rw [show ({ opts with toLowerCase := some true } : RobustOptions).container =
        opts.container from rfl, hco]
    have hu' := (robust_ok_eq body _ c hcu).symm.trans hu
    have hl' := (robust_ok_eq body _ c hcl).symm.trans hl
    have hlu := Except.ok.inj hu'
    have hll := Except.ok.inj hl'
    subst hlu
    subst hll
    simp only [show ({ opts with toLowerCase := some false } : RobustOptions).toLowerCase =
        some false from rfl,
      show ({ opts with toLowerCase := some true } : RobustOptions).toLowerCase =
        some true from rfl,
      show ({ opts with toLowerCase := some false } : RobustOptions).includeContainer =
        opts.includeContainer from rfl,
      show ({ opts with toLowerCase := some true } : RobustOptions).includeContainer =
        opts.includeContainer from rfl,
      show ({ opts with toLowerCase := some false } : RobustOptions).sortResults =
        opts.sortResults from rfl,
      show ({ opts with toLowerCase := some true } : RobustOptions).sortResults =
        opts.sortResults from rfl,
      Option.getD_some]
    cases hic : opts.includeContainer.getD false <;>
      cases hsr : opts.sortResults.getD true <;>
        simp [mem_jsSort, mem_setDedup, List.mem_append, List.mem_map]
    all_goals
      constructor
      · rintro (⟨a, ha, rfl⟩ | rfl)
        · exact ⟨a.tagName, Or.inl ⟨a, ha, rfl⟩, rfl⟩
        · exact ⟨c.tagName, Or.inr rfl, rfl⟩
      · rintro ⟨t, ⟨a, ha, rfl⟩ | rfl, rfl⟩
        · exact Or.inl ⟨a, ha, rfl⟩
        · exact Or.inr rfl

/-- Witness for the amended C8 at a concrete document. -/
theorem toLowerCaseImageWitness :
    ∃ t ∈ (["A", "a"] : List String), jsToLowerCase t = "a" :=
  (toLowerCaseImage (some mixedCaseBody) {} ["A", "a"] ["a"] rfl rfl "a").mp (by decide)

/-! ### C9: the metadata listing -/

theorem bumpCount_keys : ∀ (m : List TagMetadata) (tag : String),
    (bumpCount m tag).map TagMetadata.tagName = m.map TagMetadata.tagName
  | [], _ => rfl
  | e :: rest, tag => by
    by_cases h : e.tagName = tag
    · simp [bumpCount, h]
    · simp [bumpCount, h, bumpCount_keys rest tag]

theorem anyTag_iff (m : List TagMetadata) (s : String) :
    ((m.any fun e => e.tagName == s) = true) ↔ s ∈ m.map TagMetadata.tagName := by
  rw [List.any_eq_true]
  constructor
  · rintro ⟨e, he, heq⟩
    exact List.mem_map.mpr ⟨e, he, by simpa using heq⟩
  · intro h
    obtain ⟨e, he, heq⟩ := List.mem_map.mp h
    exact ⟨e, he, by simpa using heq⟩

theorem elementMapInsert_keys (m : List TagMetadata) (el : DomNode) :
    (elementMapInsert m el).map TagMetadata.tagName =
      setDedupStep (m.map TagMetadata.tagName) el.tagName := by
  unfold elementMapInsert setDedupStep
  by_cases h : el.tagName ∈ m.map TagMetadata.tagName
  · rw [if_pos ((anyTag_iff m el.tagName).mpr h), if_pos h, bumpCount_keys]
  · rw [if_neg (fun hh => h ((anyTag_iff m el.tagName).mp hh)), if_neg h, bumpCount_keys]
    simp [newTagMetadata]

theorem buildElementMapFold_keys : ∀ (els : List DomNode) (m : List TagMetadata),
    ((els.foldl elementMapInsert m).map TagMetadata.tagName) =
      (els.map DomNode.tagName).foldl setDedupStep (m.map TagMetadata.tagName)
  | [], _ => rfl
  | el :: els, m => by
    rw [List.foldl_cons, buildElementMapFold_keys els (elementMapInsert m el),
      elementMapInsert_keys, List.map_cons, List.foldl_cons]

theorem buildElementMap_keys (els : List DomNode) :
    (buildElementMap els).map TagMetadata.tagName = setDedup (els.map DomNode.tagName) := by
  unfold buildElementMap setDedup
  rw [buildElementMapFold_keys]
  rfl

/-- C9: with `includeMetadata = false` the metadata listing returns exactly
the basic listing; with `true` it returns the per-tag metadata records (the
element map) sorted ascending by tag label. -/
theorem withMetadataConsistency (body : Option DomNode) :
    getUniqueDomElementsWithMetadata body false =
      MetadataResult.tagsOnly (getUniqueDomElements body) ∧
    ∀ recs, getUniqueDomElementsWithMetadata body true = MetadataResult.withMetadata recs →
      List.Sorted byTagNameLe recs ∧
      List.Perm recs (buildElementMap (bodyElementsOf body)) := by
  constructor
  · show MetadataResult.tagsOnly
        (jsSort ((buildElementMap (bodyElementsOf body)).map TagMetadata.tagName)) = _
    rw [buildElementMap_keys]
    rfl
  · intro recs h
    have h' : MetadataResult.withMetadata
        (List.insertionSort byTagNameLe (buildElementMap (bodyElementsOf body))) =
        MetadataResult.withMetadata recs := h
    injection h' with h''
    subst h''
    exact ⟨List.sorted_insertionSort byTagNameLe _, List.perm_insertionSort byTagNameLe _⟩

/-- Witness for C9 at a concrete document with repeated tags. -/
theorem withMetadataConsistencyWitness :
    List.Sorted byTagNameLe
      [{ tagName := "A", count := 1, firstInstance := DomNode.node "A" [] [] [],
         firstInstanceAttributes := [], firstInstanceClasses := [] },
       { tagName := "B", count := 2, firstInstance := DomNode.node "B" [] [] [],
         firstInstanceAttributes := [], firstInstanceClasses := [] }] ∧
    List.Perm
      [{ tagName := "A", count := 1, firstInstance := DomNode.node "A" [] [] [],
         firstInstanceAttributes := [], firstInstanceClasses := [] },
       { tagName := "B", count := 2, firstInstance := DomNode.node "B" [] [] [],
         firstInstanceAttributes := [], firstInstanceClasses := [] }]
      (buildElementMap (bodyElementsOf (some freqBody))) :=
  (withMetadataConsistency (some freqBody)).2 _ rfl
